import Mathlib

/-!
Verification of the flux-pkg shell-parameter-expansion evaluator (`envsubst`)
and the LRU cache (`cache/lru.go`).

The envsubst implementation source is not present in the repository snapshot
(only its test file `envsubst/eval_test.go`), so the scanner, parser,
evaluator and pattern matcher below are modelled from the specification
(spec.md sections 3, 4, 7) and validated against the expectations recorded
in `eval_test.go`.  The LRU cache definitions are translated directly from
`cache/lru.go`.
-/

namespace Envsubst

/-- Modelled from the spec: the error kinds of section 7, plus a
`recursionLimit` error for the nesting-depth bound whose presence
section 5 prescribes ("implementations should impose a nesting-depth
limit, surfaced as an error"). -/
inductive Err where
  | unterminatedExpansion : Err
  | invalidExpansion : String → Err
  | variableNotSet : String → Err
  | recursionLimit : Err
deriving DecidableEq, Repr

/-- A raw segment produced by the scanner: a literal character, or the raw
text of one expansion body (the text between a top-level dollar-brace and
its matching closing brace). -/
inductive RawSeg where
  | lit : Char → RawSeg
  | exp : List Char → RawSeg
deriving DecidableEq, Repr

/-- Modelled from the spec (section 4.1): find the closing brace matching an
already-opened expansion, depth-counting nested dollar-brace pairs.  Returns
the body (text before the matching brace) and the rest of the input, or
`none` when the input ends before the match is found. -/
def findClose : Nat → List Char → Option (List Char × List Char)
  | _, [] => none
  | depth, '$' :: '{' :: rest =>
    (findClose (depth + 1) rest).map (fun p => ('$' :: '{' :: p.1, p.2))
  | depth, '}' :: rest =>
    if depth = 1 then some ([], rest)
    else (findClose (depth - 1) rest).map (fun p => ('}' :: p.1, p.2))
  | depth, c :: rest =>
    (findClose depth rest).map (fun p => (c :: p.1, p.2))

/-- Modelled from the spec (section 4.1): the scanner.  Consumes the input
left to right producing raw segments: a double dollar is an unconditional
escape emitting one literal dollar; a dollar-brace opens an expansion whose
body is captured whole by `findClose`; any other character (including a
dollar not followed by an opening brace) is literal.  The fuel argument
bounds the recursion; the top-level call supplies more fuel than the input
length so the bound is never reached. -/
def scanAux : Nat → List Char → Except Err (List RawSeg)
  | 0, _ => .error .recursionLimit
  | _ + 1, [] => .ok []
  | fuel + 1, c :: rest =>
    if c = '$' then
      match rest with
      | [] => (scanAux fuel rest).map (fun segs => .lit c :: segs)
      | c2 :: rest' =>
        if c2 = '$' then
          (scanAux fuel rest').map (fun segs => .lit '$' :: segs)
        else if c2 = '{' then
          match findClose 1 rest' with
          | some (body, rest'') =>
            (scanAux fuel rest'').map (fun segs => .exp body :: segs)
          | none => .error .unterminatedExpansion
        else (scanAux fuel rest).map (fun segs => .lit c :: segs)
    else (scanAux fuel rest).map (fun segs => .lit c :: segs)

/-- Modelled from the spec (section 4.1): the scanner over a whole input,
with fuel ample for the input length. -/
def scan (input : List Char) : Except Err (List RawSeg) :=
  scanAux (input.length + 1) input

example : scan "ab".toList = .ok [.lit 'a', .lit 'b'] := rfl

example : scan "$$\x7bx\x7d".toList =
    .ok [.lit '$', .lit '\x7b', .lit 'x', .lit '\x7d'] := rfl

example : scan "$\x7bvar=$\x7bx\x7d\x7d".toList =
    .ok [.exp "var=$\x7bx\x7d".toList] := rfl

example : scan "$\x7bvar".toList = .error .unterminatedExpansion := rfl

example : String.mk ['m', 'i', 's', 's', 'i', 'n', 'g'] = "missing" := rfl

/-- Modelled from the spec (sections 4.1, 4.3): glob matching of a whole
value against a pattern.  A star matches zero or more characters, a
question mark exactly one, a backslash escapes the immediately following
character (removing its syntactic meaning), and any other character
matches itself.  Implemented as a small backtracking matcher with fuel
(each step shrinks the pattern or the value, so fuel equal to the sum of
both lengths always suffices). -/
def globAux : Nat → List Char → List Char → Bool
  | 0, _, _ => false
  | _ + 1, [], [] => true
  | _ + 1, [], _ :: _ => false
  | fuel + 1, '*' :: ps, [] => globAux fuel ps []
  | fuel + 1, '*' :: ps, c :: vs =>
    globAux fuel ps (c :: vs) || globAux fuel ('*' :: ps) vs
  | _ + 1, '?' :: _, [] => false
  | fuel + 1, '?' :: ps, _ :: vs => globAux fuel ps vs
  | _ + 1, ['\\'], [] => false
  | _ + 1, '\\' :: _ :: _, [] => false
  | fuel + 1, '\\' :: p :: ps, c :: vs => p == c && globAux fuel ps vs
  | _ + 1, _ :: _, [] => false
  | fuel + 1, p :: ps, c :: vs => p == c && globAux fuel ps vs

/-- Glob matching with sufficient fuel. -/
def globMatch (pat v : List Char) : Bool :=
  globAux (pat.length + v.length + 1) pat v

example : globMatch "*.".toList "bash.".toList = true := rfl
example : globMatch "*.".toList "bash".toList = false := rfl
example : globMatch "?a".toList "ba".toList = true := rfl

/-- Anchor of a trim operation: at the start (hash forms) or at the end
(percent forms) of the value. -/
inductive TrimAnchor where
  | start : TrimAnchor
  | ending : TrimAnchor
deriving DecidableEq, Repr

/-- Greediness of a trim operation: shortest or longest anchored match. -/
inductive Greed where
  | shortest : Greed
  | longest : Greed
deriving DecidableEq, Repr

/-- Modelled from the spec (section 4.3, Trim): all lengths k such that the
pattern glob-matches the first (anchor `start`) or last (anchor `ending`)
k characters of the value, in increasing order. -/
def trimMatchLens (anchor : TrimAnchor) (pat v : List Char) : List Nat :=
  (List.range (v.length + 1)).filter fun k =>
    match anchor with
    | .start => globMatch pat (v.take k)
    | .ending => globMatch pat (v.drop (v.length - k))

/-- Modelled from the spec (section 4.3, Trim): remove the shortest or
longest glob match anchored at the start or end of the value; if no match,
return the value unchanged. -/
def trimApply (anchor : TrimAnchor) (greed : Greed) (pat v : List Char) :
    List Char :=
  let ks := trimMatchLens anchor pat v
  let chosen := match greed with
    | .shortest => ks.head?
    | .longest => ks.getLast?
  match chosen with
  | none => v
  | some k =>
    match anchor with
    | .start => v.drop k
    | .ending => v.take (v.length - k)

example :
    trimApply .ending .shortest ".*".toList "bash.string.txt".toList =
      "bash.string".toList := rfl
example :
    trimApply .ending .longest ".*".toList "bash.string.txt".toList =
      "bash".toList := rfl
example :
    trimApply .start .shortest "*.".toList "bash.string.txt".toList =
      "string.txt".toList := rfl
example :
    trimApply .start .longest "*.".toList "bash.string.txt".toList =
      "txt".toList := rfl

/-- Anchor of a replace operation: first occurrence, all occurrences,
start-anchored, or end-anchored. -/
inductive RepAnchor where
  | first : RepAnchor
  | all : RepAnchor
  | start : RepAnchor
  | ending : RepAnchor
deriving DecidableEq, Repr

/-- Modelled from the spec (section 4.3, Replace): index of the leftmost
occurrence of `pat` as a literal substring of `v`, if any. -/
def findSub (pat v : List Char) : Option Nat :=
  (List.range (v.length + 1)).find? fun i => (v.drop i).take pat.length == pat

/-- Modelled from the spec (section 4.3, Replace): replace every
non-overlapping occurrence, left to right.  Fuel bounds the recursion; an
empty pattern is rejected by the caller so each step makes progress. -/
def replaceAllAux (pat rep : List Char) : Nat → List Char → List Char
  | 0, v => v
  | fuel + 1, v =>
    match findSub pat v with
    | none => v
    | some i =>
      v.take i ++ rep ++ replaceAllAux pat rep fuel (v.drop (i + pat.length))

/-- Modelled from the spec (section 4.3, Replace): the four anchored
replacement behaviours over literal substring matches. -/
def replaceApply (anchor : RepAnchor) (pat rep v : List Char) : List Char :=
  match anchor with
  | .first =>
    match findSub pat v with
    | none => v
    | some i => v.take i ++ rep ++ v.drop (i + pat.length)
  | .all =>
    if pat.isEmpty then v else replaceAllAux pat rep (v.length + 1) v
  | .start =>
    if v.take pat.length == pat then rep ++ v.drop pat.length else v
  | .ending =>
    if pat.length ≤ v.length && (v.drop (v.length - pat.length) == pat) then
      v.take (v.length - pat.length) ++ rep
    else v

example :
    replaceApply .first "abc".toList "xyz".toList "abcABC123ABCabc".toList =
      "xyzABC123ABCabc".toList := rfl
example :
    replaceApply .all "abc".toList "xyz".toList "abcABC123ABCabc".toList =
      "xyzABC123ABCxyz".toList := rfl
example :
    replaceApply .start "abc".toList "XYZ".toList "abcABC123ABCabc".toList =
      "XYZABC123ABCabc".toList := rfl
example :
    replaceApply .ending "abc".toList "XYZ".toList "abcABC123ABCabc".toList =
      "abcABC123ABCXYZ".toList := rfl

/-- Modelled from the spec (sections 4.2, 4.3, Substring): slice the value
from a signed offset for an optional signed length.  A negative offset
counts from the end of the value; out-of-range offsets yield the empty
string rather than an error; lengths extending past the end clamp to the
available remainder; a negative length measures back from the end, and a
window that would be empty or inverted yields the empty string (the model
is total: per the spec, out-of-range values are never an error). -/
def substrApply (off : Int) (len : Option Int) (v : List Char) : List Char :=
  let n : Int := v.length
  let start : Int := if off < 0 then n + off else off
  if start < 0 ∨ n < start then []
  else
    match len with
    | none => v.drop start.toNat
    | some l =>
      if l < 0 then
        let e := n + l
        if e ≤ start then [] else (v.take e.toNat).drop start.toNat
      else (v.drop start.toNat).take l.toNat

example :
    substrApply 11 none "/home/bozo/ideas/thoughts.for.today".toList =
      "ideas/thoughts.for.today".toList := rfl
example :
    substrApply 11 (some 5) "/home/bozo/ideas/thoughts.for.today".toList =
      "ideas".toList := rfl
example : substrApply 99 none "abc".toList = [] := rfl
example : substrApply 1 (some 99) "abc".toList = "bc".toList := rfl

/-- Scope of a case conversion: only the first character, or all
characters. -/
inductive CaseScope where
  | firstChar : CaseScope
  | allChars : CaseScope
deriving DecidableEq, Repr

/-- Direction of a case conversion. -/
inductive CaseDir where
  | upper : CaseDir
  | lower : CaseDir
deriving DecidableEq, Repr

/-- Modelled from the spec (section 4.3, CaseConvert): first-char scope
converts only the first character, all-chars scope converts every
character; non-alphabetic characters pass through unchanged. -/
def caseApply (scope : CaseScope) (dir : CaseDir) (v : List Char) :
    List Char :=
  let f : Char → Char := match dir with
    | .upper => Char.toUpper
    | .lower => Char.toLower
  match scope with
  | .allChars => v.map f
  | .firstChar =>
    match v with
    | [] => []
    | c :: rest => f c :: rest

example :
    caseApply .allChars .upper "abcdEFGH28ij".toList =
      "ABCDEFGH28IJ".toList := rfl
example :
    caseApply .firstChar .lower "ABCDEFGH28IJ".toList =
      "aBCDEFGH28IJ".toList := rfl

mutual
/-- Modelled from the spec (section 3): a parsed segment, either a literal
text run or one expansion node. -/
inductive Segment where
  | lit : List Char → Segment
  | exp : Op → Segment

/-- Modelled from the spec (section 3): the operation node of one parsed
expansion body.  Default values and replacement text are themselves
recursively parsed segment sequences, so nesting evaluates correctly. -/
inductive Op where
  | value : List Char → Op
  | strLen : List Char → Op
  | caseConv : List Char → CaseScope → CaseDir → Op
  | substr : List Char → Int → Option Int → Op
  | defaultV : List Char → Bool → List Segment → Op
  | trim : List Char → TrimAnchor → Greed → List Char → Op
  | replace : List Char → RepAnchor → List Char → List Segment → Op
end

/-- A character allowed in a variable name: letters, digits and
underscore. -/
def isNameChar (c : Char) : Bool :=
  c.isAlpha || c.isDigit || c == '_'

/-- Decimal value of a digit run. -/
def digitsToNat (cs : List Char) : Nat :=
  cs.foldl (fun a c => a * 10 + (c.toNat - 48)) 0

/-- Parse a signed decimal integer occupying an entire character run. -/
def parseInt : List Char → Option Int
  | '-' :: rest =>
    if rest ≠ [] ∧ rest.all Char.isDigit then
      some (-(Int.ofNat (digitsToNat rest)))
    else none
  | cs =>
    if cs ≠ [] ∧ cs.all Char.isDigit then
      some (Int.ofNat (digitsToNat cs))
    else none

example : parseInt "11".toList = some 11 := rfl
example : parseInt "-3".toList = some (-3) := rfl
example : parseInt "1a".toList = none := rfl
example : parseInt "".toList = none := rfl

/-- Modelled from the spec (sections 4.1, 4.2): split replace text at the
first unescaped slash, processing backslash escapes in the part before it
(a backslash removes the syntactic meaning of the following character).
Returns the escape-processed pattern and the raw text after the separator,
or `none` in place of the latter when no separator occurs. -/
def splitSlash : List Char → List Char × Option (List Char)
  | [] => ([], none)
  | '\\' :: c :: rest =>
    let p := splitSlash rest
    (c :: p.1, p.2)
  | '/' :: rest => ([], some rest)
  | c :: rest =>
    let p := splitSlash rest
    (c :: p.1, p.2)

/-- Modelled from the spec (section 4.1): remove backslash escapes, keeping
the escaped character literally. -/
def unescape : List Char → List Char
  | [] => []
  | '\\' :: c :: rest => c :: unescape rest
  | c :: rest => c :: unescape rest

example : splitSlash "a\\/b/c/d".toList = ("a/b".toList, some "c/d".toList) := rfl
example : unescape "a\\/b".toList = "a/b".toList := rfl

/-- Parse each raw scanner segment using the given body parser: literal
characters stay literal and expansion bodies are parsed into operation
nodes. -/
def parseRaws (pb : List Char → Except Err Op) :
    List RawSeg → Except Err (List Segment)
  | [] => .ok []
  | .lit c :: rest =>
    (parseRaws pb rest).map (fun segs => .lit [c] :: segs)
  | .exp body :: rest =>
    match pb body with
    | .error e => .error e
    | .ok op => (parseRaws pb rest).map (fun segs => .exp op :: segs)

/-- Modelled from the spec (sections 4.1, 4.2): scan a text and parse each
of its expansion bodies with the given body parser, producing the parsed
segment sequence. -/
def parseSegsWith (pb : List Char → Except Err Op) (text : List Char) :
    Except Err (List Segment) :=
  match scan text with
  | .error e => .error e
  | .ok raws => parseRaws pb raws

/-- Modelled from the spec (section 4.2): split replace text into the
escape-processed literal pattern and the replacement, the replacement
being unescaped and recursively re-scanned and re-parsed as a segment
sequence (absent separator means empty replacement). -/
def parseReplaceWith (pb : List Char → Except Err Op) (name : List Char)
    (anchor : RepAnchor) (text : List Char) : Except Err Op :=
  let s := splitSlash text
  let repText := match s.2 with
    | none => []
    | some r => unescape r
  (parseSegsWith pb repText).map (fun segs => .replace name anchor s.1 segs)

/-- Modelled from the spec (section 4.2): parse one expansion body into an
operation node, dispatching longest-operator-first: length form, then after
the name case conversion, assigning default, substring, plain default,
replace (all, start-anchored, end-anchored, first), trim (longest first),
and bare name.  Default and replacement sub-text is recursively re-scanned
and re-parsed.  Malformed bodies are an `invalidExpansion` error.  Fuel
bounds the nesting depth; the top level supplies more fuel than the input
length, which nesting depth can never exceed. -/
def parseBodyCore (pb : List Char → Except Err Op) (body : List Char) :
    Except Err Op :=
    match body with
    | '#' :: rest =>
      if rest ≠ [] ∧ rest.all isNameChar then .ok (.strLen rest)
      else .error (.invalidExpansion (String.mk body))
    | _ =>
      let name := body.takeWhile isNameChar
      let rest := body.dropWhile isNameChar
      if name = [] then .error (.invalidExpansion (String.mk body))
      else
        match rest with
        | [] => .ok (.value name)
        | ['^', '^'] => .ok (.caseConv name .allChars .upper)
        | ['^'] => .ok (.caseConv name .firstChar .upper)
        | [',', ','] => .ok (.caseConv name .allChars .lower)
        | [','] => .ok (.caseConv name .firstChar .lower)
        | ':' :: '=' :: rest' =>
          (parseSegsWith pb rest').map
            (fun segs => .defaultV name true segs)
        | '=' :: rest' =>
          (parseSegsWith pb rest').map
            (fun segs => .defaultV name false segs)
        | ':' :: rest' =>
          let offText := rest'.takeWhile (fun c => c ≠ ':')
          let lenText := rest'.dropWhile (fun c => c ≠ ':')
          match parseInt offText with
          | none => .error (.invalidExpansion (String.mk body))
          | some off =>
            match lenText with
            | [] => .ok (.substr name off none)
            | ':' :: lt =>
              match parseInt lt with
              | some l => .ok (.substr name off (some l))
              | none => .error (.invalidExpansion (String.mk body))
            | _ => .error (.invalidExpansion (String.mk body))
        | '/' :: '/' :: rest' =>
          parseReplaceWith pb name .all rest'
        | '/' :: '#' :: rest' =>
          parseReplaceWith pb name .start rest'
        | '/' :: '%' :: rest' =>
          parseReplaceWith pb name .ending rest'
        | '/' :: rest' =>
          parseReplaceWith pb name .first rest'
        | '#' :: '#' :: rest' => .ok (.trim name .start .longest rest')
        | '#' :: rest' => .ok (.trim name .start .shortest rest')
        | '%' :: '%' :: rest' => .ok (.trim name .ending .longest rest')
        | '%' :: rest' => .ok (.trim name .ending .shortest rest')
        | _ => .error (.invalidExpansion (String.mk body))

/-- Modelled from the spec (section 4.2): parse one expansion body, the
nesting-depth fuel bounding recursion into default and replacement
sub-text. -/
def parseBody : Nat → List Char → Except Err Op
  | 0, _ => .error .recursionLimit
  | fuel + 1, body => parseBodyCore (parseBody fuel) body

/-- Modelled from the spec (sections 4.1, 4.2): scan a text and parse each
of its expansion bodies into operation nodes, with the given nesting-depth
fuel. -/
def parseSegments (fuel : Nat) (text : List Char) :
    Except Err (List Segment) :=
  parseSegsWith (parseBody fuel) text

example : parseBody 5 "var01".toList = .ok (.value "var01".toList) := rfl
example : parseBody 5 "#var01".toList = .ok (.strLen "var01".toList) := rfl
example :
    parseBody 5 "var01^^".toList =
      .ok (.caseConv "var01".toList .allChars .upper) := rfl
example :
    parseBody 5 "path:11:5".toList =
      .ok (.substr "path".toList 11 (some 5)) := rfl
example :
    parseBody 5 "missing:=default".toList =
      .ok (.defaultV "missing".toList true
        [.lit ['d'], .lit ['e'], .lit ['f'], .lit ['a'], .lit ['u'],
         .lit ['l'], .lit ['t']]) := rfl
example :
    parseBody 5 "filename%%.*".toList =
      .ok (.trim "filename".toList .ending .longest ".*".toList) := rfl
example :
    parseBody 5 "stringZ/abc/xyz".toList =
      .ok (.replace "stringZ".toList .first "abc".toList
        [.lit ['x'], .lit ['y'], .lit ['z']]) := rfl

/-- Modelled from the spec (sections 1, 6): the resolution mode.  Lenient
resolves unset variables to the empty string; strict makes an unset
variable an error unless a default is available. -/
inductive Mode where
  | lenient : Mode
  | strict : Mode
deriving DecidableEq, Repr

/-- The caller-supplied lookup function: maps a variable name to its value
when the variable exists, `none` when it does not. -/
def Lookup : Type := String → Option String

/-- Resolve a variable name per the active mode (spec section 4.3, Value):
lenient resolves an unset variable to the empty string, strict makes it a
`variableNotSet` error. -/
def resolveVar (lookup : Lookup) (mode : Mode) (name : List Char) :
    Except Err (List Char) :=
  match lookup (String.mk name) with
  | some v => .ok v.toList
  | none =>
    match mode with
    | .lenient => .ok []
    | .strict => .error (.variableNotSet (String.mk name))

/-- Evaluate a segment sequence with the given operation evaluator,
concatenating literal runs and evaluated expansions in order. -/
def evalSegsWith (eo : Op → Except Err (List Char)) :
    List Segment → Except Err (List Char)
  | [] => .ok []
  | .lit cs :: rest =>
    (evalSegsWith eo rest).map (fun out => cs ++ out)
  | .exp op :: rest =>
    match eo op with
    | .error e => .error e
    | .ok v => (evalSegsWith eo rest).map (fun out => v ++ out)

/-- Modelled from the spec (section 4.3): the evaluator.  Resolves the
operation node's variable via the lookup per the active mode and applies
the operation's semantics; default expressions and replacement text are
themselves segment sequences evaluated recursively.  A `defaultV` node
uses the variable's value whenever the lookup reports existence (even when
the value is empty) and otherwise evaluates the default expression — in
strict mode this suppresses the `variableNotSet` error.  Fuel bounds the
recursion depth into nested sequences. -/
def evalOp : Nat → Lookup → Mode → Op → Except Err (List Char)
  | 0, _, _, _ => .error .recursionLimit
  | fuel + 1, lookup, mode, op =>
    match op with
    | .value name => resolveVar lookup mode name
    | .strLen name =>
      (resolveVar lookup mode name).map (fun v => (Nat.repr v.length).toList)
    | .caseConv name scope dir =>
      (resolveVar lookup mode name).map (fun v => caseApply scope dir v)
    | .substr name off len =>
      (resolveVar lookup mode name).map (fun v => substrApply off len v)
    | .defaultV name _assigning defExpr =>
      match lookup (String.mk name) with
      | some v => .ok v.toList
      | none => evalSegsWith (evalOp fuel lookup mode) defExpr
    | .trim name anchor greed pat =>
      (resolveVar lookup mode name).map (fun v => trimApply anchor greed pat v)
    | .replace name anchor pat repExpr =>
      match resolveVar lookup mode name with
      | .error e => .error e
      | .ok v =>
        (evalSegsWith (evalOp fuel lookup mode) repExpr).map
          (fun rep => replaceApply anchor pat rep v)

/-- Evaluate a parsed segment sequence with the given nesting-depth
fuel. -/
def evalSegments (fuel : Nat) (lookup : Lookup) (mode : Mode)
    (segs : List Segment) : Except Err (List Char) :=
  evalSegsWith (evalOp fuel lookup mode) segs

/-- Modelled from the spec (sections 2, 6): the public contract.  Scan the
template into literal and expansion segments, parse each expansion body
into an operation node, evaluate the nodes with the caller-supplied lookup
under the given mode, and concatenate the results in order; the first
error aborts the whole call with no partial output.  The fuel supplied to
parser and evaluator exceeds the template length, which the nesting depth
can never exceed. -/
def expand (template : String) (lookup : Lookup) (mode : Mode) :
    Except Err String :=
  let cs := template.toList
  match parseSegments (cs.length + 1) cs with
  | .error e => .error e
  | .ok segs =>
    match evalSegments (cs.length + 1) lookup mode segs with
    | .error e => .error e
    | .ok out => .ok (String.mk out)

/-- The lookup used by the lenient-mode rows of `TestExpand`: every name
exists, absent ones with the empty value. -/
def totalLookup (m : List (String × String)) : Lookup :=
  fun name => some (((m.find? (fun p => p.1 == name)).map Prod.snd).getD "")

/-- The lookup used by `TestExpandStrict`: a name exists only when the map
holds it. -/
def mapLookup (m : List (String × String)) : Lookup :=
  fun name => (m.find? (fun p => p.1 == name)).map Prod.snd

/-! Validation of the model against every row of `TestExpand` in
`envsubst/eval_test.go` (lenient resolution) and of `TestExpandStrict`
(strict resolution). -/

example : expand "abcdEFGH28ij" (mapLookup []) .lenient =
    .ok "abcdEFGH28ij" := rfl

example :
    expand "$\x7b#var01\x7d" (mapLookup [("var01", "abcdEFGH28ij")])
      .lenient = .ok "12" := rfl

example :
    expand "$\x7bvar01^\x7d" (mapLookup [("var01", "abcdEFGH28ij")])
      .lenient = .ok "AbcdEFGH28ij" := rfl

example :
    expand "$\x7bvar01^^\x7d" (mapLookup [("var01", "abcdEFGH28ij")])
      .lenient = .ok "ABCDEFGH28IJ" := rfl

example :
    expand "$\x7bvar01,\x7d" (mapLookup [("var01", "ABCDEFGH28IJ")])
      .lenient = .ok "aBCDEFGH28IJ" := rfl

example :
    expand "$\x7bvar01,,\x7d" (mapLookup [("var01", "ABCDEFGH28IJ")])
      .lenient = .ok "abcdefgh28ij" := rfl

example :
    expand "$\x7bpath_name:11\x7d"
      (mapLookup [("path_name", "/home/bozo/ideas/thoughts.for.today")])
      .lenient = .ok "ideas/thoughts.for.today" := rfl

example :
    expand "$\x7bpath_name:11:5\x7d"
      (mapLookup [("path_name", "/home/bozo/ideas/thoughts.for.today")])
      .lenient = .ok "ideas" := rfl

example :
    expand "$\x7bvar=xyz\x7d" (mapLookup [("var", "abc")]) .lenient =
      .ok "abc" := rfl

example : expand "$\x7bvar=xyz\x7d" (mapLookup []) .lenient =
    .ok "xyz" := rfl

example :
    expand "something $\x7bvar=$\x7bdefault_var\x7d\x7d"
      (mapLookup [("default_var", "foo")]) .lenient =
      .ok "something foo" := rfl

example :
    expand "foo: $\x7bvar=$\x7bdefault_var\x7d-suffix\x7d"
      (mapLookup [("default_var", "foo1")]) .lenient =
      .ok "foo: foo1-suffix" := rfl

example :
    expand "foo: $\x7bvar=prefix$\x7bdefault_var\x7d-suffix\x7d"
      (mapLookup [("default_var", "foo1")]) .lenient =
      .ok "foo: prefixfoo1-suffix" := rfl

example : expand "$\x7bvar:=xyz\x7d" (mapLookup []) .lenient =
    .ok "xyz" := rfl

example :
    expand "$\x7bstringZ/%abc/XYZ\x7d"
      (mapLookup [("stringZ", "abcABC123ABCabc")]) .lenient =
      .ok "abcABC123ABCXYZ" := rfl

example :
    expand "$\x7bstringZ/#abc/XYZ\x7d"
      (mapLookup [("stringZ", "abcABC123ABCabc")]) .lenient =
      .ok "XYZABC123ABCabc" := rfl

example :
    expand "$\x7bstringZ//abc/xyz\x7d"
      (mapLookup [("stringZ", "abcABC123ABCabc")]) .lenient =
      .ok "xyzABC123ABCxyz" := rfl

example :
    expand "$\x7bstringZ/abc/xyz\x7d"
      (mapLookup [("stringZ", "abcABC123ABCabc")]) .lenient =
      .ok "xyzABC123ABCabc" := rfl

example :
    expand "$\x7bfilename#*.\x7d"
      (mapLookup [("filename", "bash.string.txt")]) .lenient =
      .ok "string.txt" := rfl

example :
    expand "$\x7bfilename#*/\x7d" (mapLookup [("filename", "path/to/file")])
      .lenient = .ok "to/file" := rfl

example :
    expand "$\x7bfilename#*/\x7d" (mapLookup [("filename", "/path/to/file")])
      .lenient = .ok "path/to/file" := rfl

example :
    expand "$\x7bfilename##*.\x7d"
      (mapLookup [("filename", "bash.string.txt")]) .lenient =
      .ok "txt" := rfl

example :
    expand "$\x7bfilename##*/\x7d" (mapLookup [("filename", "path/to/file")])
      .lenient = .ok "file" := rfl

example :
    expand "$\x7bfilename##*/\x7d" (mapLookup [("filename", "/path/to/file")])
      .lenient = .ok "file" := rfl

example :
    expand "$\x7bfilename%.*\x7d"
      (mapLookup [("filename", "bash.string.txt")]) .lenient =
      .ok "bash.string" := rfl

example :
    expand "$\x7bfilename%%.*\x7d"
      (mapLookup [("filename", "bash.string.txt")]) .lenient =
      .ok "bash" := rfl

example :
    expand "$\x7bvar=$\x7bvar01^^\x7d\x7d"
      (mapLookup [("var01", "abcdEFGH28ij")]) .lenient =
      .ok "ABCDEFGH28IJ" := rfl

example :
    expand "$$\x7bvar01\x7d" (mapLookup [("var01", "abcdEFGH28ij")])
      .lenient = .ok "$\x7bvar01\x7d" := rfl

example :
    expand "some text $\x7bvar01\x7d$$\x7bvar$$\x7bvar01\x7d$var01$\x7bvar01\x7d"
      (mapLookup [("var01", "abcdEFGH28ij")]) .lenient =
      .ok "some text abcdEFGH28ij$\x7bvar$\x7bvar01\x7d$var01abcdEFGH28ij" :=
  rfl

example :
    expand "something $$\x7bvar=$\x7bdefault_var\x7d\x7d"
      (mapLookup [("default_var", "foo")]) .lenient =
      .ok "something $\x7bvar=foo\x7d" := rfl

example :
    expand "$\x7bstringZ/\\//-\x7d" (mapLookup [("stringZ", "foo/bar")])
      .lenient = .ok "foo-bar" := rfl

example :
    expand "$\x7bstringZ//\\//-\x7d" (mapLookup [("stringZ", "foo/bar/baz")])
      .lenient = .ok "foo-bar-baz" := rfl

example :
    expand "\\\\something $\x7bvar=$\x7bdefault_var\x7d\x7d"
      (mapLookup [("default_var", "foo")]) .lenient =
      .ok "\\\\something foo" := rfl

example :
    expand "$\x7bstringZ/./\x7d" (mapLookup [("stringZ", "foo.bar")])
      .lenient = .ok "foobar" := rfl

example : expand "abcdEFGH28ij" (mapLookup []) .strict =
    .ok "abcdEFGH28ij" := rfl

example : expand "$\x7bfoo\x7d" (mapLookup [("foo", "bar")]) .strict =
    .ok "bar" := rfl

example : expand "$\x7bfoo\x7d" (mapLookup [("foo", "")]) .strict =
    .ok "" := rfl

example : expand "$\x7bmissing\x7d" (mapLookup []) .strict =
    .error (.variableNotSet "missing") := rfl

example :
    expand "$\x7bmissing:=default\x7d" (mapLookup [("foo", "bar")]) .strict =
      .ok "default" := rfl

/-- Modelled from the spec (section 4.1): detector for an expansion opened
with a dollar-brace whose matching closing brace never occurs before end of
input.  It traverses the input exactly as the scanner's escaping and
depth-counting rules dictate (a double dollar consumes two characters, an
opened expansion is matched by `findClose`) but records only whether an
opened expansion is left unterminated. -/
def hasUnterminatedAux : Nat → List Char → Bool
  | 0, _ => false
  | _ + 1, [] => false
  | fuel + 1, c :: rest =>
    if c = '$' then
      match rest with
      | [] => hasUnterminatedAux fuel rest
      | c2 :: rest' =>
        if c2 = '$' then hasUnterminatedAux fuel rest'
        else if c2 = '{' then
          match findClose 1 rest' with
          | some (_, rest'') => hasUnterminatedAux fuel rest''
          | none => true
        else hasUnterminatedAux fuel rest
    else hasUnterminatedAux fuel rest

/-- Whether the input opens an expansion that is never terminated, with the
same fuel the scanner receives. -/
def hasUnterminated (input : List Char) : Bool :=
  hasUnterminatedAux (input.length + 1) input

example : hasUnterminated "$\x7bvar".toList = true := rfl
example : hasUnterminated "$$\x7bvar".toList = false := rfl
example : hasUnterminated "a$\x7bx=$\x7by\x7d".toList = true := rfl
example : hasUnterminated "$\x7bvar\x7d".toList = false := rfl

/-- The span a trim operation removes when the matched anchored length is
`k`: the first `k` characters for a start anchor, the last `k` for an end
anchor. -/
def removeSpan : TrimAnchor → Nat → List Char → List Char
  | .start, k, v => v.drop k
  | .ending, k, v => v.take (v.length - k)

end Envsubst

namespace Cache

/-- The error kinds of the cache package: `ErrNotFound` returned by `Get`,
`ErrInvalidSize` returned by `Resize`, and a marker for a failed `fetch`
callback in `GetIfOrSet` (Go propagates the callback's own error). -/
inductive CacheErr where
  | notFound : CacheErr
  | invalidSize : CacheErr
  | fetchFailed : CacheErr
deriving DecidableEq, Repr

/-- The LRU cache of `cache/lru.go`.  The doubly linked list between the
sentinel head and tail nodes is modelled as `items`, ordered from the
least recently used entry (`head.next`) at the front to the most recently
used (`tail.prev`) at the back; the hash map holds exactly the listed
keys.  `capacity` is the Go `int` capacity field. -/
structure LRU (T : Type) where
  items : List (String × T)
  capacity : Int

variable {T : Type}

/-- `LRU.add` of `lru.go` (lines 207-221): link the node in front of the
tail sentinel (the back of `items`), insert it in the map, and when the
map now exceeds the capacity unlink `head.next` (the front of `items`),
reporting whether an eviction happened. -/
def LRU.add (c : LRU T) (k : String) (v : T) : Bool × LRU T :=
  let items := c.items ++ [(k, v)]
  if c.capacity < (items.length : Int) then
    (true, { c with items := items.drop 1 })
  else
    (false, { c with items := items })

/-- The private `LRU.delete` of `lru.go` (lines 247-251): unlink the node
holding the key from the list and remove it from the map. -/
def LRU.eraseKey (c : LRU T) (k : String) : LRU T :=
  { c with items := c.items.eraseP (fun p => p.1 == k) }

/-- `LRU.Set` of `lru.go` (lines 107-128): when the key is already cached,
delete the old node first, then add a fresh node; the returned Go error is
always nil, so the model returns only the new state. -/
def LRU.set (c : LRU T) (k : String) (v : T) : LRU T :=
  if (c.items.find? (fun p => p.1 == k)).isSome then
    ((c.eraseKey k).add k v).2
  else
    (c.add k v).2

/-- `LRU.Get` of `lru.go` (lines 257-271): a missing key returns the zero
value and `ErrNotFound`; a present key is moved to the most recently used
position and its value returned with a nil error. -/
def LRU.get [Inhabited T] (c : LRU T) (k : String) :
    T × Option CacheErr × LRU T :=
  match c.items.find? (fun p => p.1 == k) with
  | none => (default, some .notFound, c)
  | some p => (p.2, none, ((c.eraseKey k).add k p.2).2)

/-- `LRU.Delete` of `lru.go` (lines 224-245): a key equal to the sentinel
head/tail key (the zero string) is left alone; otherwise the node is
removed when present.  The returned Go error is always nil. -/
def LRU.deleteOp (c : LRU T) (k : String) : LRU T :=
  if k = "" then c else c.eraseKey k

/-- `LRU.Resize` of `lru.go` (lines 286-309): a non-positive size is
`ErrInvalidSize`; otherwise the capacity is updated and `overflow`
(`len(cache) - size`) front entries are evicted when positive, the count
of evictions being returned. -/
def LRU.resize (c : LRU T) (size : Int) : Int × Option CacheErr × LRU T :=
  if size ≤ 0 then
    (0, some .invalidSize, c)
  else
    let overflow : Int := (c.items.length : Int) - size
    if overflow ≤ 0 then
      (0, none, { c with capacity := size })
    else
      (overflow, none,
        { items := c.items.drop overflow.toNat, capacity := size })

/-- `LRU.GetIfOrSet` of `lru.go` (lines 135-205): a cached value passing
the condition is re-linked at the most recently used position and
returned as a hit; otherwise the node (if any) stays deleted, the fetch
callback (modelled by its result) supplies a new value which is added, and
a fetch failure leaves the zero value with the callback's error. -/
def LRU.getIfOrSet [Inhabited T] (c : LRU T) (k : String) (cond : T → Bool)
    (fetch : Option T) : T × Bool × Option CacheErr × LRU T :=
  match c.items.find? (fun p => p.1 == k) with
  | some p =>
    let c1 := c.eraseKey k
    if cond p.2 then
      (p.2, true, none, (c1.add k p.2).2)
    else
      match fetch with
      | none => (default, false, some .fetchFailed, c1)
      | some nv => (nv, false, none, (c1.add k nv).2)
  | none =>
    match fetch with
    | none => (default, false, some .fetchFailed, c)
    | some nv => (nv, false, none, (c.add k nv).2)

example :
    (LRU.mk [("a", 1), ("b", 2)] 2).set "c" 3 =
      { items := [("b", 2), ("c", 3)], capacity := 2 } := rfl

example :
    (LRU.mk [("a", 1), ("b", 2)] 2).get "a" =
      (1, none, { items := [("b", 2), ("a", 1)], capacity := 2 }) := rfl

example :
    (LRU.mk [("a", 1), ("b", 2), ("c", 3)] 3).resize 1 =
      (2, none, { items := [("c", 3)], capacity := 1 }) := rfl

end Cache

namespace Envsubst

theorem mkToList (s : String) : String.mk s.toList = s := rfl

theorem resolveVar_of_some (lookup : Lookup) (mode : Mode) (n v : String)
    (h : lookup n = some v) :
    resolveVar lookup mode n.toList = .ok v.toList := by
  unfold resolveVar
  rw [mkToList, h]

theorem resolveVar_strict_none (lookup : Lookup) (n : String)
    (h : lookup n = none) :
    resolveVar lookup .strict n.toList = .error (.variableNotSet n) := by
  unfold resolveVar
  rw [mkToList, h]

theorem resolveVar_lenient_none (lookup : Lookup) (n : String)
    (h : lookup n = none) :
    resolveVar lookup .lenient n.toList = .ok [] := by
  unfold resolveVar
  rw [mkToList, h]

theorem evalOp_value (fuel : Nat) (lookup : Lookup) (mode : Mode)
    (name : List Char) :
    evalOp (fuel + 1) lookup mode (.value name) =
      resolveVar lookup mode name := rfl

theorem evalOp_defaultV (fuel : Nat) (lookup : Lookup) (mode : Mode)
    (name : List Char) (b : Bool) (segs : List Segment) :
    evalOp (fuel + 1) lookup mode (.defaultV name b segs) =
      match lookup (String.mk name) with
      | some v => .ok v.toList
      | none => evalSegsWith (evalOp fuel lookup mode) segs := rfl

theorem evalOp_replace (fuel : Nat) (lookup : Lookup) (mode : Mode)
    (name : List Char) (anchor : RepAnchor) (pat : List Char)
    (repSegs : List Segment) :
    evalOp (fuel + 1) lookup mode (.replace name anchor pat repSegs) =
      match resolveVar lookup mode name with
      | .error e => .error e
      | .ok v =>
        (evalSegsWith (evalOp fuel lookup mode) repSegs).map
          (fun rep => replaceApply anchor pat rep v) := rfl

theorem evalOp_trim (fuel : Nat) (lookup : Lookup) (mode : Mode)
    (name : List Char) (anchor : TrimAnchor) (greed : Greed)
    (pat : List Char) :
    evalOp (fuel + 1) lookup mode (.trim name anchor greed pat) =
      (resolveVar lookup mode name).map
        (fun v => trimApply anchor greed pat v) := rfl

theorem evalOp_substr (fuel : Nat) (lookup : Lookup) (mode : Mode)
    (name : List Char) (off : Int) (len : Option Int) :
    evalOp (fuel + 1) lookup mode (.substr name off len) =
      (resolveVar lookup mode name).map
        (fun v => substrApply off len v) := rfl

/-- C4: for every lookup function (and either resolution mode), expanding
the template consisting of a double dollar followed by a braced variable
reference returns the literal braced reference: the double-dollar escape
unconditionally emits one literal dollar and consumes two characters, so
the following braced text is not expanded, independent of whether the
variable resolves. -/
theorem c4_double_dollar_escape (lookup : Lookup) (mode : Mode) :
    expand "$$\x7bvar\x7d" lookup mode = .ok "$\x7bvar\x7d" := rfl

/-- C1: in strict mode, for every lookup under which `missing` is absent,
expanding a bare reference to it fails with the `variableNotSet` error,
while expanding it with an assigning default succeeds with the default
text: a default expression suppresses the strict-mode error for its
variable. -/
theorem c1_strict_default_suppresses (lookup : Lookup)
    (h : lookup "missing" = none) :
    expand "$\x7bmissing\x7d" lookup .strict =
        .error (.variableNotSet "missing") ∧
      expand "$\x7bmissing:=default\x7d" lookup .strict = .ok "default" := by
  constructor
  · have hp : parseSegments ("$\x7bmissing\x7d".toList.length + 1)
        "$\x7bmissing\x7d".toList =
        .ok [.exp (.value "missing".toList)] := rfl
    simp only [expand, evalSegments]
    rw [hp]
    simp only [evalSegsWith]
    rw [evalOp_value, resolveVar_strict_none lookup "missing" h]
  · have hp : parseSegments ("$\x7bmissing:=default\x7d".toList.length + 1)
        "$\x7bmissing:=default\x7d".toList =
        .ok [.exp (.defaultV "missing".toList true
          [.lit ['d'], .lit ['e'], .lit ['f'], .lit ['a'], .lit ['u'],
           .lit ['l'], .lit ['t']])] := rfl
    simp only [expand, evalSegments]
    rw [hp]
    simp only [evalSegsWith]
    rw [evalOp_defaultV, mkToList, h]
    rfl

theorem c1_strict_default_suppresses_witness :
    (mapLookup [] "missing" = none) ∧
      (expand "$\x7bmissing\x7d" (mapLookup []) .strict =
          .error (.variableNotSet "missing") ∧
        expand "$\x7bmissing:=default\x7d" (mapLookup []) .strict =
          .ok "default") :=
  ⟨rfl, c1_strict_default_suppresses (mapLookup []) rfl⟩

/-- C5: default-value text is recursively parsed and evaluated as a
literal/expansion segment sequence, so nested expansions inside a default
evaluate correctly: expanding the default form whose default text holds a
nested reference and a literal suffix, with the variable unset and the
nested variable bound to "foo1", yields "foo1-suffix" (in either mode). -/
theorem c5_nested_default (lookup : Lookup) (mode : Mode)
    (h1 : lookup "var" = none) (h2 : lookup "default_var" = some "foo1") :
    expand "$\x7bvar=$\x7bdefault_var\x7d-suffix\x7d" lookup mode =
      .ok "foo1-suffix" := by
  have hp : parseSegments
      ("$\x7bvar=$\x7bdefault_var\x7d-suffix\x7d".toList.length + 1)
      "$\x7bvar=$\x7bdefault_var\x7d-suffix\x7d".toList =
      .ok [.exp (.defaultV "var".toList false
        [.exp (.value "default_var".toList), .lit ['-'], .lit ['s'],
         .lit ['u'], .lit ['f'], .lit ['f'], .lit ['i'],
         .lit ['x']])] := rfl
  simp only [expand, evalSegments]
  rw [hp]
  simp only [evalSegsWith]
  rw [evalOp_defaultV, mkToList, h1]
  simp only [evalSegsWith]
  have he : evalOp "$\x7bvar=$\x7bdefault_var\x7d-suffix\x7d".toList.length
      lookup mode (.value "default_var".toList) =
      resolveVar lookup mode "default_var".toList := rfl
  rw [he, resolveVar_of_some lookup mode "default_var" "foo1" h2]
  rfl

theorem c5_nested_default_witness :
    (mapLookup [("default_var", "foo1")] "var" = none) ∧
      (mapLookup [("default_var", "foo1")] "default_var" = some "foo1") ∧
      expand "$\x7bvar=$\x7bdefault_var\x7d-suffix\x7d"
        (mapLookup [("default_var", "foo1")]) .lenient = .ok "foo1-suffix" :=
  ⟨rfl, rfl,
    c5_nested_default (mapLookup [("default_var", "foo1")]) .lenient rfl rfl⟩

/-- C3: the replace family matches the pattern as a literal substring and
the anchor selects the occurrence — a single slash replaces only the first
occurrence, a double slash every non-overlapping occurrence, a
slash-hash only a match at the start, a slash-percent only a match at the
end — so for the value "abcABC123ABCabc" the four forms produce
"xyzABC123ABCabc", "xyzABC123ABCxyz", "XYZABC123ABCabc" and
"abcABC123ABCXYZ" respectively (in either mode). -/
theorem c3_replace_family (lookup : Lookup) (mode : Mode)
    (h : lookup "stringZ" = some "abcABC123ABCabc") :
    expand "$\x7bstringZ/abc/xyz\x7d" lookup mode =
        .ok "xyzABC123ABCabc" ∧
      expand "$\x7bstringZ//abc/xyz\x7d" lookup mode =
        .ok "xyzABC123ABCxyz" ∧
      expand "$\x7bstringZ/#abc/XYZ\x7d" lookup mode =
        .ok "XYZABC123ABCabc" ∧
      expand "$\x7bstringZ/%abc/XYZ\x7d" lookup mode =
        .ok "abcABC123ABCXYZ" := by
  refine ⟨?_, ?_, ?_, ?_⟩
  · have hp : parseSegments ("$\x7bstringZ/abc/xyz\x7d".toList.length + 1)
        "$\x7bstringZ/abc/xyz\x7d".toList =
        .ok [.exp (.replace "stringZ".toList .first "abc".toList
          [.lit ['x'], .lit ['y'], .lit ['z']])] := rfl
    simp only [expand, evalSegments]
    rw [hp]
    simp only [evalSegsWith]
    rw [evalOp_replace,
      resolveVar_of_some lookup mode "stringZ" "abcABC123ABCabc" h]
    rfl
  · have hp : parseSegments ("$\x7bstringZ//abc/xyz\x7d".toList.length + 1)
        "$\x7bstringZ//abc/xyz\x7d".toList =
        .ok [.exp (.replace "stringZ".toList .all "abc".toList
          [.lit ['x'], .lit ['y'], .lit ['z']])] := rfl
    simp only [expand, evalSegments]
    rw [hp]
    simp only [evalSegsWith]
    rw [evalOp_replace,
      resolveVar_of_some lookup mode "stringZ" "abcABC123ABCabc" h]
    rfl
  · have hp : parseSegments ("$\x7bstringZ/#abc/XYZ\x7d".toList.length + 1)
        "$\x7bstringZ/#abc/XYZ\x7d".toList =
        .ok [.exp (.replace "stringZ".toList .start "abc".toList
          [.lit ['X'], .lit ['Y'], .lit ['Z']])] := rfl
    simp only [expand, evalSegments]
    rw [hp]
    simp only [evalSegsWith]
    rw [evalOp_replace,
      resolveVar_of_some lookup mode "stringZ" "abcABC123ABCabc" h]
    rfl
  · have hp : parseSegments ("$\x7bstringZ/%abc/XYZ\x7d".toList.length + 1)
        "$\x7bstringZ/%abc/XYZ\x7d".toList =
        .ok [.exp (.replace "stringZ".toList .ending "abc".toList
          [.lit ['X'], .lit ['Y'], .lit ['Z']])] := rfl
    simp only [expand, evalSegments]
    rw [hp]
    simp only [evalSegsWith]
    rw [evalOp_replace,
      resolveVar_of_some lookup mode "stringZ" "abcABC123ABCabc" h]
    rfl

theorem c3_replace_family_witness :
    (mapLookup [("stringZ", "abcABC123ABCabc")] "stringZ" =
        some "abcABC123ABCabc") ∧
      (expand "$\x7bstringZ/abc/xyz\x7d"
          (mapLookup [("stringZ", "abcABC123ABCabc")]) .lenient =
          .ok "xyzABC123ABCabc" ∧
        expand "$\x7bstringZ//abc/xyz\x7d"
          (mapLookup [("stringZ", "abcABC123ABCabc")]) .lenient =
          .ok "xyzABC123ABCxyz" ∧
        expand "$\x7bstringZ/#abc/XYZ\x7d"
          (mapLookup [("stringZ", "abcABC123ABCabc")]) .lenient =
          .ok "XYZABC123ABCabc" ∧
        expand "$\x7bstringZ/%abc/XYZ\x7d"
          (mapLookup [("stringZ", "abcABC123ABCabc")]) .lenient =
          .ok "abcABC123ABCXYZ") :=
  ⟨rfl, c3_replace_family (mapLookup [("stringZ", "abcABC123ABCabc")])
    .lenient rfl⟩

end Envsubst

namespace Envsubst

theorem substrApply_offset_past (v : List Char) (off : Int) (len : Option Int)
    (h2 : (v.length : Int) ≤ off) : substrApply off len v = [] := by
  have h0 : ¬ off < 0 := by omega
  rcases len with _ | l
  · simp only [substrApply]
    rw [if_neg h0]
    split_ifs with hc
    · rfl
    · push_neg at hc
      exact List.drop_eq_nil_of_le (by omega)
  · simp only [substrApply]
    rw [if_neg h0]
    split_ifs with hc hl he
    · rfl
    · rfl
    · push_neg at hc
      omega
    · push_neg at hc
      rw [List.drop_eq_nil_of_le (show v.length ≤ off.toNat by omega),
        List.take_nil]

theorem substrApply_len_clamp (v : List Char) (off l : Int) (h0 : 0 ≤ off)
    (h1 : 0 ≤ l) (h2 : (v.length : Int) ≤ off + l) :
    substrApply off (some l) v = v.drop off.toNat := by
  have h0' : ¬ off < 0 := by omega
  simp only [substrApply]
  rw [if_neg h0']
  split_ifs with hc hl he
  · rcases hc with hc | hc
    · omega
    · exact (List.drop_eq_nil_of_le (by omega)).symm
  · omega
  · omega
  · exact List.take_of_length_le (by rw [List.length_drop]; omega)

/-- C6: for every resolved value and every substring offset and optional
length, the evaluator returns the clamped slice and never an error: an
offset at or beyond the end of the value yields the empty string, and a
non-negative length extending past the end yields only the available
remainder from the offset. -/
theorem c6_substring_clamps (lookup : Lookup) (mode : Mode) (fuel : Nat)
    (n v : String) (off : Int) (len : Option Int)
    (h : lookup n = some v) :
    evalOp (fuel + 1) lookup mode (.substr n.toList off len) =
        .ok (substrApply off len v.toList) ∧
      ((v.toList.length : Int) ≤ off → substrApply off len v.toList = []) ∧
      (∀ l : Int, 0 ≤ off → 0 ≤ l → (v.toList.length : Int) ≤ off + l →
        substrApply off (some l) v.toList = v.toList.drop off.toNat) := by
  refine ⟨?_, fun h2 => substrApply_offset_past _ _ _ h2,
    fun l hl0 hl1 hl2 => substrApply_len_clamp _ _ _ hl0 hl1 hl2⟩
  rw [evalOp_substr, resolveVar_of_some lookup mode n v h]
  rfl

theorem c6_substring_clamps_witness :
    (mapLookup [("p", "abc")] "p" = some "abc") ∧
      evalOp (0 + 1) (mapLookup [("p", "abc")]) .lenient
          (.substr "p".toList 5 (some 2)) =
        .ok (substrApply 5 (some 2) "abc".toList) :=
  ⟨rfl, (c6_substring_clamps (mapLookup [("p", "abc")]) .lenient 0 "p" "abc"
    5 (some 2) rfl).1⟩

theorem trimMatchLens_sorted (anchor : TrimAnchor) (pat v : List Char) :
    (trimMatchLens anchor pat v).Pairwise (· < ·) :=
  (List.pairwise_lt_range _).filter _

theorem sortedHead?Le {l : List Nat} (hp : l.Pairwise (· < ·)) {a : Nat}
    (ha : l.head? = some a) : ∀ b ∈ l, a ≤ b := by
  cases l with
  | nil => cases ha
  | cons x t =>
    have hax : x = a := by simpa using ha
    subst hax
    intro b hb
    rcases List.mem_cons.mp hb with hbx | hbt
    · exact le_of_eq hbx.symm
    · exact le_of_lt ((List.pairwise_cons.mp hp).1 b hbt)

theorem sortedGetLast?Le {l : List Nat} (hp : l.Pairwise (· < ·)) {a : Nat}
    (ha : l.getLast? = some a) : ∀ b ∈ l, b ≤ a := by
  have hp' : l.reverse.Pairwise (fun x y => y < x) :=
    List.pairwise_reverse.mpr hp
  have ha' : l.reverse.head? = some a := by
    rw [List.head?_reverse]; exact ha
  intro b hb
  have hb' : b ∈ l.reverse := List.mem_reverse.mpr hb
  cases hr : l.reverse with
  | nil => rw [hr] at ha'; cases ha'
  | cons x t =>
    rw [hr] at ha' hb' hp'
    have hax : x = a := by simpa using ha'
    subst hax
    rcases List.mem_cons.mp hb' with hbx | hbt
    · exact le_of_eq hbx
    · exact le_of_lt ((List.pairwise_cons.mp hp').1 b hbt)


/-- C2: a single hash/percent trim removes the shortest glob match anchored
at the start/end of the value and the doubled forms remove the longest, an
unmatched pattern leaving the value unchanged: concretely for the value
"bash.string.txt" the four forms give "bash.string", "bash", "string.txt"
and "txt"; in general the anchored match lengths are exactly the prefix or
suffix lengths the pattern glob-matches, the shortest form removes a
minimal matched span and the longest form a maximal one. -/
theorem c2_trim_greediness (lookup : Lookup) (mode : Mode)
    (h : lookup "v" = some "bash.string.txt") :
    (expand "$\x7bv%.*\x7d" lookup mode = .ok "bash.string" ∧
      expand "$\x7bv%%.*\x7d" lookup mode = .ok "bash" ∧
      expand "$\x7bv#*.\x7d" lookup mode = .ok "string.txt" ∧
      expand "$\x7bv##*.\x7d" lookup mode = .ok "txt") ∧
    (∀ (anchor : TrimAnchor) (greed : Greed) (pat v : List Char),
      trimMatchLens anchor pat v = [] → trimApply anchor greed pat v = v) ∧
    (∀ (pat v : List Char) (k : Nat),
      k ∈ trimMatchLens .start pat v ↔
        k ≤ v.length ∧ globMatch pat (v.take k) = true) ∧
    (∀ (pat v : List Char) (k : Nat),
      k ∈ trimMatchLens .ending pat v ↔
        k ≤ v.length ∧ globMatch pat (v.drop (v.length - k)) = true) ∧
    (∀ (anchor : TrimAnchor) (pat v : List Char) (k : Nat),
      k ∈ trimMatchLens anchor pat v →
        ∃ ks kl, ks ∈ trimMatchLens anchor pat v ∧
          kl ∈ trimMatchLens anchor pat v ∧ ks ≤ k ∧ k ≤ kl ∧
          trimApply anchor .shortest pat v = removeSpan anchor ks v ∧
          trimApply anchor .longest pat v = removeSpan anchor kl v) := by
  refine ⟨⟨?_, ?_, ?_, ?_⟩, ?_, ?_, ?_, ?_⟩
  · have hp : parseSegments ("$\x7bv%.*\x7d".toList.length + 1)
        "$\x7bv%.*\x7d".toList =
        .ok [.exp (.trim "v".toList .ending .shortest ".*".toList)] := rfl
    simp only [expand, evalSegments]
    rw [hp]
    simp only [evalSegsWith]
    rw [evalOp_trim, resolveVar_of_some lookup mode "v" "bash.string.txt" h]
    rfl
  · have hp : parseSegments ("$\x7bv%%.*\x7d".toList.length + 1)
        "$\x7bv%%.*\x7d".toList =
        .ok [.exp (.trim "v".toList .ending .longest ".*".toList)] := rfl
    simp only [expand, evalSegments]
    rw [hp]
    simp only [evalSegsWith]
    rw [evalOp_trim, resolveVar_of_some lookup mode "v" "bash.string.txt" h]
    rfl
  · have hp : parseSegments ("$\x7bv#*.\x7d".toList.length + 1)
        "$\x7bv#*.\x7d".toList =
        .ok [.exp (.trim "v".toList .start .shortest "*.".toList)] := rfl
    simp only [expand, evalSegments]
    rw [hp]
    simp only [evalSegsWith]
    rw [evalOp_trim, resolveVar_of_some lookup mode "v" "bash.string.txt" h]
    rfl
  · have hp : parseSegments ("$\x7bv##*.\x7d".toList.length + 1)
        "$\x7bv##*.\x7d".toList =
        .ok [.exp (.trim "v".toList .start .longest "*.".toList)] := rfl
    simp only [expand, evalSegments]
    rw [hp]
    simp only [evalSegsWith]
    rw [evalOp_trim, resolveVar_of_some lookup mode "v" "bash.string.txt" h]
    rfl
  · intro anchor greed pat v h0
    cases greed <;> simp [trimApply, h0]
  · intro pat v k
    simp [trimMatchLens, List.mem_filter, List.mem_range, Nat.lt_succ_iff]
  · intro pat v k
    simp [trimMatchLens, List.mem_filter, List.mem_range, Nat.lt_succ_iff]
  · intro anchor pat v k hk
    have hpw := trimMatchLens_sorted anchor pat v
    have hne : trimMatchLens anchor pat v ≠ [] := by
      intro h0
      rw [h0] at hk
      cases hk
    obtain ⟨ks, hks⟩ : ∃ ks, (trimMatchLens anchor pat v).head? = some ks := by
      cases hhd : (trimMatchLens anchor pat v).head? with
      | none => exact absurd (List.head?_eq_none_iff.mp hhd) hne
      | some x => exact ⟨x, rfl⟩
    obtain ⟨kl, hkl⟩ :
        ∃ kl, (trimMatchLens anchor pat v).getLast? = some kl := by
      cases hlt : (trimMatchLens anchor pat v).getLast? with
      | none => exact absurd (List.getLast?_eq_none_iff.mp hlt) hne
      | some x => exact ⟨x, rfl⟩
    refine ⟨ks, kl, List.mem_of_mem_head? (by simp [hks]),
      List.mem_of_mem_getLast? (by simp [hkl]),
      sortedHead?Le hpw hks k hk, sortedGetLast?Le hpw hkl k hk, ?_, ?_⟩
    · cases anchor <;> simp [trimApply, hks, removeSpan]
    · cases anchor <;> simp [trimApply, hkl, removeSpan]

theorem c2_trim_greediness_witness :
    (mapLookup [("v", "bash.string.txt")] "v" = some "bash.string.txt") ∧
      (expand "$\x7bv%.*\x7d" (mapLookup [("v", "bash.string.txt")])
          .lenient = .ok "bash.string" ∧
        expand "$\x7bv%%.*\x7d" (mapLookup [("v", "bash.string.txt")])
          .lenient = .ok "bash" ∧
        expand "$\x7bv#*.\x7d" (mapLookup [("v", "bash.string.txt")])
          .lenient = .ok "string.txt" ∧
        expand "$\x7bv##*.\x7d" (mapLookup [("v", "bash.string.txt")])
          .lenient = .ok "txt") :=
  ⟨rfl, (c2_trim_greediness (mapLookup [("v", "bash.string.txt")])
    .lenient rfl).1⟩


theorem map_ne_err {α β : Type} (f : α → β) (x : Except Err α) (e : Err)
    (hx : x ≠ .error e) : x.map f ≠ .error e := by
  cases x with
  | error e' => simpa [Except.map] using hx
  | ok a => simp [Except.map]

theorem hUAux_nil (fuel : Nat) : hasUnterminatedAux fuel [] = false := by
  cases fuel <;> rfl

theorem scanAux_of_unterminated :
    ∀ (fuel : Nat) (input : List Char),
      hasUnterminatedAux fuel input = true →
      scanAux fuel input = .error .unterminatedExpansion := by
  intro fuel
  induction fuel with
  | zero =>
    intro input h
    simp [hasUnterminatedAux] at h
  | succ f ih =>
    intro input h
    cases input with
    | nil => simp [hasUnterminatedAux] at h
    | cons c rest =>
      cases rest with
      | nil => simp [hasUnterminatedAux, hUAux_nil] at h
      | cons c2 rest' =>
        simp only [hasUnterminatedAux] at h
        simp only [scanAux]
        by_cases hc : c = '$'
        · rw [if_pos hc] at h ⊢
          by_cases h2 : c2 = '$'
          · rw [if_pos h2] at h ⊢
            rw [ih _ h]
            rfl
          · rw [if_neg h2] at h ⊢
            by_cases h3 : c2 = '{'
            · rw [if_pos h3] at h ⊢
              rcases hfc : findClose 1 rest' with _ | ⟨b, r⟩
              · simp only [hfc]
              · simp only [hfc] at h ⊢
                rw [ih _ h]
                rfl
            · rw [if_neg h3] at h ⊢
              rw [ih _ h]
              rfl
        · rw [if_neg hc] at h ⊢
          rw [ih _ h]
          rfl

/-- C8: for every input in which a dollar-brace expansion is opened but no
matching closing brace occurs before end of input (as detected by the
escaping- and depth-aware `hasUnterminated`), `expand` fails with the
`unterminatedExpansion` error under every lookup and mode, and returns no
output string at all (all-or-nothing). -/
theorem c8_unterminated_fails (template : String) (lookup : Lookup)
    (mode : Mode) (h : hasUnterminated template.toList = true) :
    expand template lookup mode = .error .unterminatedExpansion ∧
      ∀ s, expand template lookup mode ≠ .ok s := by
  have hscan : scanAux (template.toList.length + 1) template.toList =
      .error .unterminatedExpansion :=
    scanAux_of_unterminated _ _ h
  have hexp : expand template lookup mode =
      .error .unterminatedExpansion := by
    simp only [expand, parseSegments, parseSegsWith, scan]
    rw [hscan]
  exact ⟨hexp, fun s hs => by rw [hexp] at hs; cases hs⟩

theorem c8_unterminated_fails_witness :
    (hasUnterminated "$\x7bvar".toList = true) ∧
      expand "$\x7bvar" (mapLookup []) .lenient =
        .error .unterminatedExpansion :=
  ⟨rfl, (c8_unterminated_fails "$\x7bvar" (mapLookup []) .lenient rfl).1⟩


theorem scanAux_ne_varNotSet :
    ∀ (fuel : Nat) (input : List Char) (nm : String),
      scanAux fuel input ≠ .error (.variableNotSet nm) := by
  intro fuel
  induction fuel with
  | zero =>
    intro input nm
    simp [scanAux]
  | succ f ih =>
    intro input nm
    cases input with
    | nil => simp [scanAux]
    | cons c rest =>
      cases rest with
      | nil =>
        simp only [scanAux]
        by_cases hc : c = '$'
        · rw [if_pos hc]
          exact map_ne_err _ _ _ (ih [] nm)
        · rw [if_neg hc]
          exact map_ne_err _ _ _ (ih [] nm)
      | cons c2 rest' =>
        simp only [scanAux]
        by_cases hc : c = '$'
        · rw [if_pos hc]
          by_cases h2 : c2 = '$'
          · rw [if_pos h2]
            exact map_ne_err _ _ _ (ih rest' nm)
          · rw [if_neg h2]
            by_cases h3 : c2 = '{'
            · rw [if_pos h3]
              rcases hfc : findClose 1 rest' with _ | ⟨b, r⟩
              · simp only [hfc]
                simp
              · simp only [hfc]
                exact map_ne_err _ _ _ (ih r nm)
            · rw [if_neg h3]
              exact map_ne_err _ _ _ (ih (c2 :: rest') nm)
        · rw [if_neg hc]
          exact map_ne_err _ _ _ (ih (c2 :: rest') nm)

theorem parseRaws_ne (pb : List Char → Except Err Op) (nm : String)
    (hpb : ∀ b, pb b ≠ .error (.variableNotSet nm)) :
    ∀ raws, parseRaws pb raws ≠ .error (.variableNotSet nm) := by
  intro raws
  induction raws with
  | nil => simp [parseRaws]
  | cons r rest ih =>
    cases r with
    | lit c =>
      simp only [parseRaws]
      exact map_ne_err _ _ _ ih
    | exp body =>
      simp only [parseRaws]
      cases hb : pb body with
      | error e =>
        have h' := hpb body
        rw [hb] at h'
        simpa using h'
      | ok op =>
        exact map_ne_err _ _ _ ih

theorem parseSegsWith_ne (pb : List Char → Except Err Op) (nm : String)
    (hpb : ∀ b, pb b ≠ .error (.variableNotSet nm)) :
    ∀ text, parseSegsWith pb text ≠ .error (.variableNotSet nm) := by
  intro text
  simp only [parseSegsWith]
  cases hs : scan text with
  | error e =>
    have h' := scanAux_ne_varNotSet (text.length + 1) text nm
    rw [show scan text = scanAux (text.length + 1) text from rfl] at hs
    rw [hs] at h'
    simpa using h'
  | ok raws =>
    exact parseRaws_ne pb nm hpb raws

set_option maxHeartbeats 2000000 in
theorem parseBodyCore_ne (pb : List Char → Except Err Op) (nm : String)
    (hsegs : ∀ text, parseSegsWith pb text ≠ .error (.variableNotSet nm)) :
    ∀ body, parseBodyCore pb body ≠ .error (.variableNotSet nm) := by
  intro body
  unfold parseBodyCore
  split
  · split <;> simp
  · dsimp only
    split
    · simp
    · split <;>
        first
          | exact map_ne_err _ _ _ (hsegs _)
          | (simp
             done)
          | ((repeat' split) <;> simp)

theorem parseBody_ne (nm : String) :
    ∀ (fuel : Nat) (body : List Char),
      parseBody fuel body ≠ .error (.variableNotSet nm) := by
  intro fuel
  induction fuel with
  | zero =>
    intro body
    rw [show parseBody 0 body = Except.error Err.recursionLimit from rfl]
    simp
  | succ f ih =>
    intro body
    have hsegs : ∀ text, parseSegsWith (parseBody f) text ≠
        .error (.variableNotSet nm) :=
      parseSegsWith_ne (parseBody f) nm ih
    rw [show parseBody (f + 1) body = parseBodyCore (parseBody f) body
      from rfl]
    exact parseBodyCore_ne (parseBody f) nm hsegs body

theorem resolveVar_lenient_ne (lookup : Lookup) (name : List Char)
    (e : Err) : resolveVar lookup .lenient name ≠ .error e := by
  unfold resolveVar
  cases lookup (String.mk name) <;> simp

theorem evalSegsWith_ne (eo : Op → Except Err (List Char)) (nm : String)
    (heo : ∀ op, eo op ≠ .error (.variableNotSet nm)) :
    ∀ segs, evalSegsWith eo segs ≠ .error (.variableNotSet nm) := by
  intro segs
  induction segs with
  | nil => simp [evalSegsWith]
  | cons s rest ih =>
    cases s with
    | lit cs =>
      simp only [evalSegsWith]
      exact map_ne_err _ _ _ ih
    | exp op =>
      simp only [evalSegsWith]
      cases hb : eo op with
      | error e =>
        have h' := heo op
        rw [hb] at h'
        simpa using h'
      | ok v =>
        exact map_ne_err _ _ _ ih

theorem evalOp_ne_lenient (nm : String) :
    ∀ (fuel : Nat) (lookup : Lookup) (op : Op),
      evalOp fuel lookup .lenient op ≠ .error (.variableNotSet nm) := by
  intro fuel
  induction fuel with
  | zero =>
    intro lookup op
    simp [evalOp]
  | succ f ih =>
    intro lookup op
    have hsegs : ∀ segs, evalSegsWith (evalOp f lookup .lenient) segs ≠
        .error (.variableNotSet nm) :=
      evalSegsWith_ne _ nm (fun o => ih lookup o)
    cases op with
    | value name =>
      simp only [evalOp]
      exact resolveVar_lenient_ne lookup name _
    | strLen name =>
      simp only [evalOp]
      exact map_ne_err _ _ _ (resolveVar_lenient_ne lookup name _)
    | caseConv name scope dir =>
      simp only [evalOp]
      exact map_ne_err _ _ _ (resolveVar_lenient_ne lookup name _)
    | substr name off len =>
      simp only [evalOp]
      exact map_ne_err _ _ _ (resolveVar_lenient_ne lookup name _)
    | defaultV name b segs =>
      simp only [evalOp]
      cases hl : lookup (String.mk name) with
      | some v => simp
      | none => exact hsegs segs
    | trim name anchor greed pat =>
      simp only [evalOp]
      exact map_ne_err _ _ _ (resolveVar_lenient_ne lookup name _)
    | replace name anchor pat repSegs =>
      simp only [evalOp]
      cases hrv : resolveVar lookup .lenient name with
      | error e => exact absurd hrv (resolveVar_lenient_ne lookup name e)
      | ok v => exact map_ne_err _ _ _ (hsegs repSegs)

/-- C7: in lenient mode `expand` never returns the `variableNotSet` error,
for every template and every lookup: each variable the lookup reports as
unset resolves to the empty string and evaluation continues. -/
theorem c7_lenient_no_varNotSet (template : String) (lookup : Lookup)
    (nm : String) :
    expand template lookup .lenient ≠ .error (.variableNotSet nm) := by
  simp only [expand]
  cases hp : parseSegments (template.toList.length + 1) template.toList with
  | error e =>
    have h' := parseSegsWith_ne (parseBody (template.toList.length + 1)) nm
      (fun b => parseBody_ne nm (template.toList.length + 1) b)
      template.toList
    rw [show parseSegments (template.toList.length + 1) template.toList =
        parseSegsWith (parseBody (template.toList.length + 1))
          template.toList from rfl] at hp
    rw [hp] at h'
    simpa using h'
  | ok segs =>
    show (match evalSegments (template.toList.length + 1) lookup .lenient
        segs with
      | Except.error e => Except.error e
      | Except.ok out => Except.ok (String.mk out)) ≠
      Except.error (Err.variableNotSet nm)
    cases he : evalSegments (template.toList.length + 1) lookup .lenient
        segs with
    | error e =>
      have h' := evalSegsWith_ne
        (evalOp (template.toList.length + 1) lookup .lenient) nm
        (fun op =>
          evalOp_ne_lenient nm (template.toList.length + 1) lookup op)
        segs
      rw [show evalSegments (template.toList.length + 1) lookup .lenient
          segs =
          evalSegsWith (evalOp (template.toList.length + 1) lookup .lenient)
            segs from rfl] at he
      rw [he] at h'
      simpa using h'
    | ok out => simp

end Envsubst

namespace Cache

variable {T : Type}

theorem add_preserves (c : LRU T) (k : String) (v : T)
    (h : (c.items.length : Int) ≤ c.capacity) :
    ((c.add k v).2.items.length : Int) ≤ (c.add k v).2.capacity := by
  simp only [LRU.add]
  split_ifs with hc
  · simp only [List.length_drop, List.length_append, List.length_cons,
      List.length_nil]
    push_cast
    omega
  · simp only [List.length_append, List.length_cons, List.length_nil]
    simp only [List.length_append, List.length_cons, List.length_nil] at hc
    push_cast at hc ⊢
    omega

theorem eraseKey_le (c : LRU T) (k : String)
    (h : (c.items.length : Int) ≤ c.capacity) :
    ((c.eraseKey k).items.length : Int) ≤ (c.eraseKey k).capacity := by
  simp only [LRU.eraseKey]
  calc ((c.items.eraseP (fun p => p.1 == k)).length : Int)
      ≤ (c.items.length : Int) := by
        exact_mod_cast List.length_eraseP_le _
    _ ≤ c.capacity := h

/-- C9: for every LRU cache whose stored items fit its capacity (at least
one), every operation preserves the invariant that the number of stored
items is at most the current capacity; `add` reports an eviction exactly
when the map would exceed capacity, and `Resize` evicts and reports
exactly the overflow. -/
theorem c9_lru_capacity_invariant [Inhabited T] (c : LRU T) (k : String)
    (v : T) (cond : T → Bool) (fetch : Option T) (size : Int)
    (hinv : (c.items.length : Int) ≤ c.capacity) (hcap : 1 ≤ c.capacity) :
    (((c.set k v).items.length : Int) ≤ (c.set k v).capacity) ∧
    (((c.get k).2.2.items.length : Int) ≤ (c.get k).2.2.capacity) ∧
    (((c.getIfOrSet k cond fetch).2.2.2.items.length : Int) ≤
      (c.getIfOrSet k cond fetch).2.2.2.capacity) ∧
    (((c.deleteOp k).items.length : Int) ≤ (c.deleteOp k).capacity) ∧
    (((c.resize size).2.2.items.length : Int) ≤
      (c.resize size).2.2.capacity) ∧
    ((c.add k v).1 = true ↔ c.capacity < (c.items.length : Int) + 1) ∧
    (1 ≤ size →
      (c.resize size).1 = max ((c.items.length : Int) - size) 0 ∧
        ((c.resize size).2.2.items.length : Int) =
          (c.items.length : Int) - (c.resize size).1) := by
  refine ⟨?_, ?_, ?_, ?_, ?_, ?_, ?_⟩
  · simp only [LRU.set]
    split_ifs with hmem
    · exact add_preserves _ _ _ (eraseKey_le c k hinv)
    · exact add_preserves _ _ _ hinv
  · simp only [LRU.get]
    cases hf : c.items.find? (fun p => p.1 == k) with
    | none => exact hinv
    | some p => exact add_preserves _ _ _ (eraseKey_le c k hinv)
  · simp only [LRU.getIfOrSet]
    cases hf : c.items.find? (fun p => p.1 == k) with
    | none =>
      cases fetch with
      | none => exact hinv
      | some nv => exact add_preserves _ _ _ hinv
    | some p =>
      by_cases hcnd : cond p.2
      · simp only [hcnd, if_true]
        exact add_preserves _ _ _ (eraseKey_le c k hinv)
      · simp only [hcnd, if_false]
        cases fetch with
        | none => exact eraseKey_le c k hinv
        | some nv => exact add_preserves _ _ _ (eraseKey_le c k hinv)
  · simp only [LRU.deleteOp]
    split_ifs with hk
    · exact hinv
    · exact eraseKey_le c k hinv
  · simp only [LRU.resize]
    split_ifs with h1 h2
    · exact hinv
    · push_cast
      omega
    · simp only [List.length_drop]
      push_cast
      omega
  · simp only [LRU.add]
    split_ifs with hc
    · simp only [List.length_append, List.length_cons, List.length_nil]
        at hc
      push_cast at hc
      simpa using hc
    · simp only [List.length_append, List.length_cons, List.length_nil]
        at hc
      push_cast at hc
      simpa using hc
  · intro hsz
    simp only [LRU.resize]
    rw [if_neg (by omega)]
    split_ifs with hov
    · constructor
      · rw [max_eq_right (by omega)]
      · simp
    · constructor
      · rw [max_eq_left (by omega)]
      · simp only [List.length_drop]
        omega

theorem c9_lru_capacity_invariant_witness :
    (((LRU.mk [("a", (1 : Nat))] 2).items.length : Int) ≤
        (LRU.mk [("a", (1 : Nat))] 2).capacity) ∧
      (1 : Int) ≤ (LRU.mk [("a", (1 : Nat))] 2).capacity ∧
      ((((LRU.mk [("a", (1 : Nat))] 2).set "b" 5).items.length : Int) ≤
        ((LRU.mk [("a", (1 : Nat))] 2).set "b" 5).capacity) :=
  ⟨by norm_num, by norm_num,
    (c9_lru_capacity_invariant (LRU.mk [("a", (1 : Nat))] 2) "b" 5
      (fun _ => true) none 1 (by norm_num) (by norm_num)).1⟩

theorem eraseP_keys_ne (l : List (String × T)) (k : String)
    (hnd : (l.map Prod.fst).Nodup) :
    ∀ p ∈ l.eraseP (fun q => q.1 == k), p.1 ≠ k := by
  induction l with
  | nil => simp
  | cons a t ih =>
    simp only [List.map_cons, List.nodup_cons] at hnd
    rw [List.eraseP_cons]
    cases hb : (a.1 == k) with
    | true =>
      simp only [cond_true]
      intro p hp hpk
      have hak : a.1 = k := by simpa using hb
      exact hnd.1 (List.mem_map.mpr ⟨p, hp, hpk.trans hak.symm⟩)
    | false =>
      simp only [cond_false]
      intro p hp
      rcases List.mem_cons.mp hp with rfl | hpt
      · simpa using hb
      · exact ih hnd.2 p hpt

theorem find?_append_self (k : String) (v : T) (b : List (String × T))
    (hb : ∀ p ∈ b, p.1 ≠ k) :
    (b ++ [(k, v)]).find? (fun p => p.1 == k) = some (k, v) := by
  rw [List.find?_append]
  have hnone : b.find? (fun p => p.1 == k) = none :=
    List.find?_eq_none.mpr (fun p hp => by simpa using hb p hp)
  rw [hnone]
  simp [List.find?]

theorem add_find (k : String) (v : T) (items : List (String × T))
    (cap : Int) (hb : ∀ p ∈ items, p.1 ≠ k) (hcap : 1 ≤ cap) :
    ((LRU.mk items cap).add k v).2.items.find? (fun p => p.1 == k) =
      some (k, v) := by
  simp only [LRU.add]
  split_ifs with hc
  · cases items with
    | nil =>
      simp only [List.nil_append, List.length_cons, List.length_nil] at hc
      push_cast at hc
      omega
    | cons a t =>
      simp only [List.cons_append, List.drop_succ_cons, List.drop_zero]
      exact find?_append_self k v t
        (fun p hp => hb p (List.mem_cons_of_mem a hp))
  · exact find?_append_self k v items hb

/-- C10: for every LRU cache with capacity at least one and distinct
stored keys, `Set` followed by `Get` on the same key returns the stored
value with a nil error, while `Get` on a key no stored item has returns
the zero value together with the not-found error and leaves the cache
unchanged. -/
theorem c10_lru_set_get [Inhabited T] (c : LRU T) (k : String) (v : T)
    (hcap : 1 ≤ c.capacity) (hnd : (c.items.map Prod.fst).Nodup) :
    (((c.set k v).get k).1 = v ∧ ((c.set k v).get k).2.1 = none) ∧
      (∀ k', (∀ p ∈ c.items, p.1 ≠ k') →
        c.get k' = (default, some .notFound, c)) := by
  have hfind : (c.set k v).items.find? (fun p => p.1 == k) = some (k, v) := by
    simp only [LRU.set]
    split_ifs with hmem
    · simp only [LRU.eraseKey]
      exact add_find k v _ _ (eraseP_keys_ne c.items k hnd) hcap
    · have hno : c.items.find? (fun p => p.1 == k) = none :=
        Option.not_isSome_iff_eq_none.mp hmem
      exact add_find k v _ _
        (fun p hp => by simpa using List.find?_eq_none.mp hno p hp) hcap
  refine ⟨⟨?_, ?_⟩, ?_⟩
  · simp [LRU.get, hfind]
  · simp [LRU.get, hfind]
  · intro k' hk'
    have hf : c.items.find? (fun p => p.1 == k') = none :=
      List.find?_eq_none.mpr (fun p hp => by simpa using hk' p hp)
    simp [LRU.get, hf]

theorem c10_lru_set_get_witness :
    (1 : Int) ≤ (LRU.mk [("a", (1 : Nat))] 2).capacity ∧
      ((LRU.mk [("a", (1 : Nat))] 2).items.map Prod.fst).Nodup ∧
      ((((LRU.mk [("a", (1 : Nat))] 2).set "b" 5).get "b").1 = 5 ∧
        (((LRU.mk [("a", (1 : Nat))] 2).set "b" 5).get "b").2.1 = none) :=
  ⟨by norm_num, by simp,
    (c10_lru_set_get (LRU.mk [("a", (1 : Nat))] 2) "b" 5 (by norm_num)
      (by simp)).1⟩

end Cache
